import Mathlib

/-!
# postfix_exporter: queue counting and the collection cycle

A shallow embedding of `postfix_exporter.go`:

* `countDir` (source lines 90-113), the recursive directory counter;
* `NewPostfixExporter`, `Describe`, `scrape`, `Collect` (source lines 38-163).

The filesystem is a function from paths to what `os.Open` followed by `Readdir(-1)` yields
there.  Gauge values and counts are `float64` in the source; every value the program can
compute is a non-negative integer or `+Inf`, so a value is represented by the natural number
it holds (`posInf` standing for `+Inf`) and `+` on `float64` by `fadd`, which rounds the exact
sum to the nearest representable value, ties to even.  `log.Fatal` ends the process
(`os.Exit(1)`): deferred calls do not run and nothing after it is executed.
-/

namespace PostfixExporter

/-! ## float64 arithmetic on non-negative integers -/

/-- The representation of the `float64` value `+Inf`: `2 ^ 1024` is larger than every finite
`float64`, and `fadd` maps every sum that reaches it back to it. -/
def posInf : Nat := 2 ^ 1024

/-- Rounding of a natural number to `float64` (round to nearest, ties to even).  Integers up to
`2 ^ 53` are representable.  Above that the spacing of representable values is
`2 ^ (log2 n - 52)`; `q` is the 53-bit significand and `r` the part that is rounded away.  A
result of `2 ^ 1024` or more overflows to `+Inf`. -/
def f64 (n : Nat) : Nat :=
  if n ≤ 2 ^ 53 then n
  else
    let e := Nat.log2 n - 52
    let q := n / 2 ^ e
    let r := n % 2 ^ e
    let q' := if 2 ^ e < 2 * r ∨ (2 * r = 2 ^ e ∧ q % 2 = 1) then q + 1 else q
    if posInf ≤ q' * 2 ^ e then posInf else q' * 2 ^ e

/-- The `float64` sum `a + b` of the source (`count += mycount`, `count++`,
`total_length += incoming_queue`). -/
def fadd (a b : Nat) : Nat := f64 (a + b)

/-! ## The filesystem as seen by `countDir` -/

/-- An `os.FileInfo` as far as `countDir` reads it: `fi.Name()` and `fi.IsDir()`. -/
structure FileInfo where
  Name : String
  IsDir : Bool
deriving DecidableEq

/-- What `os.Open(tgt)` followed by `root.Readdir(-1)` yields for a path: `os.Open` fails,
`Readdir` fails, or the entries of the directory in the order the listing returns them. -/
inductive DirState where
  | openErr
  | readErr
  | entries (res : List FileInfo)
deriving DecidableEq

/-- A filesystem state: the `DirState` of every path. -/
abbrev FS := String → DirState

/-- How a call of `countDir` ends: it returns a value, the process is ended by `log.Fatal`,
or the recursion is deeper than the fuel given. -/
inductive Outcome (α : Type) where
  | ret (a : α)
  | exit
  | deep
deriving DecidableEq

/-- The `for _, fi := range res` loop of `countDir` (source lines 100-111), started with the
running `count`; `call` is the recursive call of `countDir`.  The error returned by the
recursive call is only logged (lines 104-106), the returned count is added either way. -/
def countLoop (call : String → Outcome (Nat × Option String)) (tgt : String) :
    List FileInfo → Nat → Outcome (Nat × Option String)
  | [], count => .ret (count, none)
  | fi :: res, count =>
    if fi.IsDir then
      match call (tgt ++ "/" ++ fi.Name) with
      | .ret (mycount, _) => countLoop call tgt res (fadd count mycount)
      | .exit => .exit
      | .deep => .deep
    else countLoop call tgt res (fadd count 1)

/-- The function `countDir(tgt string) (float64, error)` (source lines 90-113).  A failing
`os.Open` and a failing `Readdir` both reach `log.Fatal`; otherwise the loop runs from
`count := 0.0` and the function returns `count, nil`.  The first argument after the
filesystem bounds the depth of the recursion. -/
def countDir (fs : FS) : Nat → String → Outcome (Nat × Option String)
  | 0, _ => .deep
  | fuel + 1, tgt =>
    match fs tgt with
    | .openErr => .exit
    | .readErr => .exit
    | .entries res => countLoop (countDir fs fuel) tgt res 0

/-! ## Finite directory trees -/

/-- A finite directory tree, given as the listing of its root: empty, a non-directory entry
followed by the rest of the listing, or a subdirectory (with its own listing) followed by the
rest. -/
inductive Dir where
  | nil
  | file (name : String) (rest : Dir)
  | sub (name : String) (content : Dir) (rest : Dir)
deriving DecidableEq

/-- The entries `Readdir(-1)` returns for the root of the tree. -/
def Dir.infos : Dir → List FileInfo
  | .nil => []
  | .file n r => ⟨n, false⟩ :: r.infos
  | .sub n _ r => ⟨n, true⟩ :: r.infos

/-- The number of non-directory entries in the whole tree. -/
def Dir.files : Dir → Nat
  | .nil => 0
  | .file _ r => 1 + r.files
  | .sub _ c r => c.files + r.files

/-- The nesting depth of the tree below its root. -/
def Dir.depth : Dir → Nat
  | .nil => 0
  | .file _ r => r.depth
  | .sub _ c r => max (c.depth + 1) r.depth

/-- Every subdirectory of the tree `d` rooted at path `p` can be opened and listed, and its
listing is the one the tree gives. -/
def SubHosted (fs : FS) : String → Dir → Prop
  | _, .nil => True
  | p, .file _ r => SubHosted fs p r
  | p, .sub n c r =>
    (fs (p ++ "/" ++ n) = .entries c.infos ∧ SubHosted fs (p ++ "/" ++ n) c) ∧ SubHosted fs p r

/-- The filesystem holds the tree `d` at path `p`: the directory at `p` and every directory
below it can be opened and listed, with the entries of `d`. -/
def Hosts (fs : FS) (p : String) (d : Dir) : Prop :=
  fs p = .entries d.infos ∧ SubHosted fs p d

/-- Decision procedure for `SubHosted`. -/
def SubHosted.dec (fs : FS) : (p : String) → (d : Dir) → Decidable (SubHosted fs p d)
  | _, .nil => isTrue trivial
  | p, .file _ r => SubHosted.dec fs p r
  | p, .sub n c r =>
    match decEq (fs (p ++ "/" ++ n)) (.entries c.infos), SubHosted.dec fs (p ++ "/" ++ n) c,
        SubHosted.dec fs p r with
    | isTrue h1, isTrue h2, isTrue h3 => isTrue ⟨⟨h1, h2⟩, h3⟩
    | isFalse h1, _, _ => isFalse fun h => h1 h.1.1
    | _, isFalse h2, _ => isFalse fun h => h2 h.1.2
    | _, _, isFalse h3 => isFalse fun h => h3 h.2

instance (fs : FS) (p : String) (d : Dir) : Decidable (SubHosted fs p d) := SubHosted.dec fs p d

instance (fs : FS) (p : String) (d : Dir) : Decidable (Hosts fs p d) :=
  inferInstanceAs (Decidable (_ ∧ _))

/-- Two results for one path that differ at most in the order of the listing. -/
def DirState.Reordered : DirState → DirState → Prop
  | .openErr, .openErr => True
  | .readErr, .readErr => True
  | .entries a, .entries b => a.Perm b
  | _, _ => False

/-- The filesystem `fs2` is `fs1` with the listing of any directory, at any depth, returned
in a permuted order. -/
def Reordered (fs1 fs2 : FS) : Prop := ∀ p, (fs1 p).Reordered (fs2 p)

/-- As `SubHosted`, with every listing allowed to come in any order. -/
def SubHostedP (fs : FS) : String → Dir → Prop
  | _, .nil => True
  | p, .file _ r => SubHostedP fs p r
  | p, .sub n c r =>
    ((∃ l, fs (p ++ "/" ++ n) = .entries l ∧ l.Perm c.infos) ∧ SubHostedP fs (p ++ "/" ++ n) c)
      ∧ SubHostedP fs p r

/-- What one entry of a listing adds to `count` in `countLoop`. -/
def weight (call : String → Outcome (Nat × Option String)) (tgt : String) (fi : FileInfo) : Nat :=
  if fi.IsDir then
    match call (tgt ++ "/" ++ fi.Name) with
    | .ret (c, _) => c
    | _ => 0
  else 1

/-- A directory listing of `n` files and no subdirectory. -/
def flat : Nat → Dir
  | 0 => .nil
  | n + 1 => .file (toString n) (flat n)

/-! ## Gauges and the exporter -/

/-- The fields of `prometheus.GaugeOpts` the exporter sets; they are the identity of a gauge
and what its `Describe` reports. -/
structure GaugeOpts where
  Namespace : String
  Name : String
  Help : String
deriving DecidableEq

/-- A `prometheus.Gauge`: its fixed options and its current `float64` value. -/
structure Gauge where
  opts : GaugeOpts
  val : Nat
deriving DecidableEq

/-- A `prometheus.Metric` sent on the channel by `Gauge.Collect`: the identity and the value
of the gauge at that moment. -/
structure Metric where
  desc : GaugeOpts
  value : Nat
deriving DecidableEq

/-- The library call `prometheus.NewGauge(opts)`: a gauge with value zero. -/
def NewGauge (opts : GaugeOpts) : Gauge := ⟨opts, 0⟩

/-- The library call `g.Set(v)`. -/
def Gauge.Set (g : Gauge) (v : Nat) : Gauge := { g with val := v }

/-- The library call `g.Describe(ch)`: sends the descriptor of the gauge on `ch`. -/
def Gauge.Describe (g : Gauge) (ch : List GaugeOpts) : List GaugeOpts := ch ++ [g.opts]

/-- The library call `g.Collect(ch)`: sends the current value of the gauge on `ch`. -/
def Gauge.Collect (g : Gauge) (ch : List Metric) : List Metric := ch ++ [⟨g.opts, g.val⟩]

/-- The constant `namespace` (source line 15). -/
def metricNamespace : String := "postfix"

/-- The struct `Exporter` (source lines 26-35); `mutex` is `true` while the lock is held. -/
structure Exporter where
  mutex : Bool
  totalQ : Gauge
  incomingQ : Gauge
  activeQ : Gauge
  maildropQ : Gauge
  deferredQ : Gauge
  holdQ : Gauge
  bounceQ : Gauge
deriving DecidableEq

/-- The constructor `NewPostfixExporter` (source lines 38-76). -/
def NewPostfixExporter : Exporter :=
  { mutex := false
    totalQ := NewGauge ⟨metricNamespace, "total_queue_length", "length of mail queue"⟩
    incomingQ := NewGauge ⟨metricNamespace, "incoming_queue_length", "length of incoming mail queue"⟩
    activeQ := NewGauge ⟨metricNamespace, "active_queue_length", "length of active mail queue"⟩
    maildropQ := NewGauge ⟨metricNamespace, "maildrop_queue_length", "length of maildrop queue"⟩
    deferredQ := NewGauge ⟨metricNamespace, "deferred_queue_length", "length of deferred mail queue"⟩
    holdQ := NewGauge ⟨metricNamespace, "hold_queue_length", "length of hold mail queue"⟩
    bounceQ := NewGauge ⟨metricNamespace, "bounce_queue_length", "length of bounce mail queue"⟩ }

/-- The method `Describe` (source lines 80-88): the exporter after the call and the channel
after the seven sends. -/
def Describe (e : Exporter) (ch : List GaugeOpts) : Exporter × List GaugeOpts :=
  let ch := e.totalQ.Describe ch
  let ch := e.incomingQ.Describe ch
  let ch := e.activeQ.Describe ch
  let ch := e.maildropQ.Describe ch
  let ch := e.deferredQ.Describe ch
  let ch := e.holdQ.Describe ch
  let ch := e.bounceQ.Describe ch
  (e, ch)

/-- The seven gauge fields of `Exporter`. -/
inductive Field where
  | totalQ | incomingQ | activeQ | maildropQ | deferredQ | holdQ | bounceQ
deriving DecidableEq

/-- Reading a gauge field. -/
def Exporter.get (e : Exporter) : Field → Gauge
  | .totalQ => e.totalQ
  | .incomingQ => e.incomingQ
  | .activeQ => e.activeQ
  | .maildropQ => e.maildropQ
  | .deferredQ => e.deferredQ
  | .holdQ => e.holdQ
  | .bounceQ => e.bounceQ

/-- Writing a gauge field. -/
def Exporter.put (e : Exporter) (g : Gauge) : Field → Exporter
  | .totalQ => { e with totalQ := g }
  | .incomingQ => { e with incomingQ := g }
  | .activeQ => { e with activeQ := g }
  | .maildropQ => { e with maildropQ := g }
  | .deferredQ => { e with deferredQ := g }
  | .holdQ => { e with holdQ := g }
  | .bounceQ => { e with bounceQ := g }

/-! ## One execution of `Collect` as state passing with an event trace -/

/-- The observable events of an execution of `Collect`: lock and unlock of `e.mutex`, a call
of `countDir` made by `scrape`, a `Set` of a gauge, the emission of a gauge value by
`Collect`, and the end of the process by `log.Fatal`. -/
inductive Event where
  | Lock
  | Unlock
  | countDir (tgt : String)
  | Set (f : Field) (v : Nat)
  | Collect (f : Field) (v : Nat)
  | Fatal
deriving DecidableEq

/-- The state an execution threads through: the exporter, the metrics sent on the channel
`ch`, and the events so far. -/
structure Run where
  e : Exporter
  ch : List Metric
  trace : List Event
deriving DecidableEq

/-- How an action ends, with the state at that point: it returns, the process ends in
`log.Fatal`, the recursion of `countDir` exceeds the fuel, or `Lock` waits for a mutex that
is held. -/
inductive Step (α : Type) where
  | ret (a : α) (s : Run)
  | exit (s : Run)
  | deep (s : Run)
  | blocked (s : Run)
deriving DecidableEq

/-- The state in which an action ended. -/
def Step.state {α : Type} : Step α → Run
  | .ret _ s => s
  | .exit s => s
  | .deep s => s
  | .blocked s => s

/-- An action on the run state. -/
def Act (α : Type) : Type := Run → Step α

/-- The action that returns `a`. -/
def Act.pure {α : Type} (a : α) : Act α := fun s => .ret a s

/-- Sequencing: what follows runs only when the first action returns. -/
def Act.bind {α β : Type} (m : Act α) (f : α → Act β) : Act β := fun s =>
  match m s with
  | .ret a s' => f a s'
  | .exit s' => .exit s'
  | .deep s' => .deep s'
  | .blocked s' => .blocked s'

instance : Monad Act where
  pure := Act.pure
  bind := Act.bind

/-- The call `e.mutex.Lock()`. -/
def mutexLock : Act Unit := fun s =>
  if s.e.mutex then .blocked s
  else .ret () { s with e := { s.e with mutex := true }, trace := s.trace ++ [.Lock] }

/-- The call `e.mutex.Unlock()`. -/
def mutexUnlock : Act Unit := fun s =>
  .ret () { s with e := { s.e with mutex := false }, trace := s.trace ++ [.Unlock] }

/-- A call of `countDir` from `scrape`. -/
def callCountDir (fs : FS) (fuel : Nat) (tgt : String) : Act (Nat × Option String) := fun s =>
  let s' := { s with trace := s.trace ++ [.countDir tgt] }
  match countDir fs fuel tgt with
  | .ret r => .ret r s'
  | .exit => .exit { s' with trace := s'.trace ++ [.Fatal] }
  | .deep => .deep s'

/-- The call `e.<f>.Set(v)`. -/
def gaugeSet (f : Field) (v : Nat) : Act Unit := fun s =>
  .ret () { s with e := s.e.put ((s.e.get f).Set v) f, trace := s.trace ++ [.Set f v] }

/-- The call `e.<f>.Collect(ch)`. -/
def gaugeCollect (f : Field) : Act Unit := fun s =>
  .ret () { s with ch := (s.e.get f).Collect s.ch, trace := s.trace ++ [.Collect f (s.e.get f).val] }

/-- The method `scrape` (source lines 115-145); `queueDir` is the value of the flag
`postfix.queue_root`.  It returns the `error` of the source, always `nil`. -/
def scrape (fs : FS) (queueDir : String) (fuel : Nat) : Act (Option String) := do
  let total_length := 0
  let (incoming_queue, _) ← callCountDir fs fuel (queueDir ++ "/incoming")
  gaugeSet .incomingQ incoming_queue
  let total_length := fadd total_length incoming_queue
  let (active_queue, _) ← callCountDir fs fuel (queueDir ++ "/active")
  gaugeSet .activeQ active_queue
  let total_length := fadd total_length active_queue
  let (maildrop_queue, _) ← callCountDir fs fuel (queueDir ++ "/maildrop")
  gaugeSet .maildropQ maildrop_queue
  let total_length := fadd total_length maildrop_queue
  let (deferred_queue, _) ← callCountDir fs fuel (queueDir ++ "/deferred")
  gaugeSet .deferredQ deferred_queue
  let total_length := fadd total_length deferred_queue
  let (hold_queue, _) ← callCountDir fs fuel (queueDir ++ "/hold")
  gaugeSet .holdQ hold_queue
  let total_length := fadd total_length hold_queue
  let (bounce_queue, _) ← callCountDir fs fuel (queueDir ++ "/bounce")
  gaugeSet .bounceQ bounce_queue
  let total_length := fadd total_length bounce_queue
  gaugeSet .totalQ total_length
  return none

/-- The method `Collect` (source lines 149-163).  The deferred `Unlock` runs when the
function returns, after the seven emissions; the error of `scrape` is only logged. -/
def Collect (fs : FS) (queueDir : String) (fuel : Nat) : Act Unit := do
  mutexLock
  let _err ← scrape fs queueDir fuel
  gaugeCollect .totalQ
  gaugeCollect .incomingQ
  gaugeCollect .activeQ
  gaugeCollect .maildropQ
  gaugeCollect .deferredQ
  gaugeCollect .holdQ
  gaugeCollect .bounceQ
  mutexUnlock

/-- The state in which a call of `Collect` started in `s` returns when its six calls of
`countDir` return `i a m d h b`. -/
def finish (s : Run) (queueDir : String) (i a m d h b : Nat) : Run :=
  let t := fadd (fadd (fadd (fadd (fadd (fadd 0 i) a) m) d) h) b
  { e :=
      { mutex := false
        totalQ := s.e.totalQ.Set t
        incomingQ := s.e.incomingQ.Set i
        activeQ := s.e.activeQ.Set a
        maildropQ := s.e.maildropQ.Set m
        deferredQ := s.e.deferredQ.Set d
        holdQ := s.e.holdQ.Set h
        bounceQ := s.e.bounceQ.Set b }
    ch := s.ch ++
      [⟨s.e.totalQ.opts, t⟩, ⟨s.e.incomingQ.opts, i⟩, ⟨s.e.activeQ.opts, a⟩,
       ⟨s.e.maildropQ.opts, m⟩, ⟨s.e.deferredQ.opts, d⟩, ⟨s.e.holdQ.opts, h⟩,
       ⟨s.e.bounceQ.opts, b⟩]
    trace := s.trace ++
      [.Lock,
       .countDir (queueDir ++ "/incoming"), .Set .incomingQ i,
       .countDir (queueDir ++ "/active"), .Set .activeQ a,
       .countDir (queueDir ++ "/maildrop"), .Set .maildropQ m,
       .countDir (queueDir ++ "/deferred"), .Set .deferredQ d,
       .countDir (queueDir ++ "/hold"), .Set .holdQ h,
       .countDir (queueDir ++ "/bounce"), .Set .bounceQ b,
       .Set .totalQ t,
       .Collect .totalQ t, .Collect .incomingQ i, .Collect .activeQ a, .Collect .maildropQ m,
       .Collect .deferredQ d, .Collect .holdQ h, .Collect .bounceQ b,
       .Unlock] }

/-- A sequence of `Collect` calls on one exporter, each on its own filesystem state and with
a fresh channel; the exporter after the last call, or at the point where the process ended. -/
def collects (queueDir : String) : List (FS × Nat) → Exporter → Exporter
  | [], e => e
  | (fs, fuel) :: rest, e =>
    match Collect fs queueDir fuel ⟨e, [], []⟩ with
    | .ret _ s => collects queueDir rest s.e
    | .exit s => s.e
    | .deep s => s.e
    | .blocked s => s.e

/-! ## Concrete filesystem states -/

/-- Queue root `/q`: `incoming` with 3 files, `active` with 1 file, the other four empty. -/
def fsA : FS := fun p =>
  if p = "/q/incoming" then .entries [⟨"a", false⟩, ⟨"b", false⟩, ⟨"c", false⟩]
  else if p = "/q/active" then .entries [⟨"x", false⟩]
  else if p = "/q/maildrop" then .entries []
  else if p = "/q/deferred" then .entries []
  else if p = "/q/hold" then .entries []
  else if p = "/q/bounce" then .entries []
  else .openErr

/-- The tree under `/q/incoming` in `fsA`. -/
def dirIncoming : Dir := .file "a" (.file "b" (.file "c" .nil))

/-- The tree under `/q/active` in `fsA`. -/
def dirActive : Dir := .file "x" .nil

/-- Directory `/q/deferred` holds a subdirectory `a` with 2 files and a sibling file. -/
def fsNested : FS := fun p =>
  if p = "/q/deferred" then .entries [⟨"a", true⟩, ⟨"m3", false⟩]
  else if p = "/q/deferred/a" then .entries [⟨"m1", false⟩, ⟨"m2", false⟩]
  else .openErr

/-- The tree under `/q/deferred` in `fsNested`. -/
def dirNested : Dir := .sub "a" (.file "m1" (.file "m2" .nil)) (.file "m3" .nil)

/-- The filesystem `fsNested` with both listings returned in the opposite order. -/
def fsReordered : FS := fun p =>
  if p = "/q/deferred" then .entries [⟨"m3", false⟩, ⟨"a", true⟩]
  else if p = "/q/deferred/a" then .entries [⟨"m2", false⟩, ⟨"m1", false⟩]
  else .openErr

/-- The listing of `k` subdirectories, named by the numbers below `k`, each holding `m`
files, followed by the listing `rest`. -/
def wide (m : Nat) : Nat → Dir → Dir
  | 0, rest => rest
  | k + 1, rest => .sub (toString k) (flat m) (wide m k rest)

/-- Directory `/q` lists `K` subdirectories and then two files. -/
def dirsFirst (K m : Nat) : Dir := wide m K (.file "a" (.file "b" .nil))

/-- The same directory with the two files listed before the `K` subdirectories. -/
def filesFirst (K m : Nat) : Dir := .file "a" (.file "b" (wide m K .nil))

/-- The filesystem in which `/q` has the listing of `root` and each of `/q/0`, ...,
`/q/(K-1)` is a directory of `m` files; nothing else can be opened. -/
def fsWide (K m : Nat) (root : Dir) : FS := fun p =>
  if p = "/q" then .entries root.infos
  else if p ∈ (List.range K).map (fun i => "/q/" ++ toString i) then .entries (flat m).infos
  else .openErr

/-- Directory `/q/deferred` is readable and holds two files and a subdirectory `bad` that
cannot be opened. -/
def fsUnreadableNested : FS := fun p =>
  if p = "/q/deferred" then .entries [⟨"m1", false⟩, ⟨"bad", true⟩, ⟨"m2", false⟩]
  else .openErr

/-- Queue root `/q` without the subdirectory `incoming`; the other five are readable. -/
def fsMissingIncoming : FS := fun p =>
  if p = "/q/active" then .entries [⟨"x", false⟩]
  else if p = "/q/maildrop" then .entries []
  else if p = "/q/deferred" then .entries []
  else if p = "/q/hold" then .entries []
  else if p = "/q/bounce" then .entries []
  else .openErr

/-- Queue root `/q` in which `hold` can be opened but not listed. -/
def fsUnlistableHold : FS := fun p =>
  if p = "/q/incoming" then .entries [⟨"a", false⟩]
  else if p = "/q/active" then .entries []
  else if p = "/q/maildrop" then .entries []
  else if p = "/q/deferred" then .entries []
  else if p = "/q/hold" then .readErr
  else if p = "/q/bounce" then .entries []
  else .openErr

/-! ## Lemmas -/

/-- Every integer up to `2 ^ 53` is a `float64` value. -/
theorem f64_of_le {n : Nat} (h : n ≤ 2 ^ 53) : f64 n = n := by
  unfold f64; rw [if_pos h]

theorem posInf_eq : posInf = 2 ^ 52 * 2 ^ 972 := by
  unfold posInf
  rw [← pow_add]

theorem lt_posInf {n : Nat} (h : n ≤ 2 ^ 53) : n < posInf := by
  have key : ∀ k, 53 < k → n < 2 ^ k := fun k hk =>
    lt_of_le_of_lt h (Nat.pow_lt_pow_right (by norm_num) hk)
  exact key 1024 (by norm_num)

theorem log2_eq_of_bounds {n k : Nat} (h1 : 2 ^ k ≤ n) (h2 : n < 2 ^ (k + 1)) :
    Nat.log2 n = k := by
  have hpos : 0 < 2 ^ k := Nat.two_pow_pos k
  have hn : n ≠ 0 := by omega
  have a : Nat.log2 n < k + 1 := (Nat.log2_lt hn).2 h2
  have b : ¬ Nat.log2 n < k := fun h => by
    have := (Nat.log2_lt hn).1 h
    omega
  omega

theorem f64_scaled (m k : Nat) (hm1 : 2 ^ 52 ≤ m) (hm2 : m < 2 ^ 53) :
    f64 (m * 2 ^ k) = if posInf ≤ m * 2 ^ k then posInf else m * 2 ^ k := by
  have hpos : 0 < 2 ^ k := Nat.two_pow_pos k
  by_cases hle : m * 2 ^ k ≤ 2 ^ 53
  · have hlt : m * 2 ^ k < posInf := lt_posInf hle
    rw [f64_of_le hle, if_neg (by omega)]
  · have hlog : Nat.log2 (m * 2 ^ k) = 52 + k := by
      apply log2_eq_of_bounds
      · rw [pow_add]; exact Nat.mul_le_mul_right _ hm1
      · rw [show 52 + k + 1 = 53 + k by omega, pow_add]
        exact Nat.mul_lt_mul_of_pos_right hm2 hpos
    unfold f64
    rw [if_neg hle]
    simp only [hlog, Nat.add_sub_cancel_left, Nat.mul_div_cancel _ hpos, Nat.mul_mod_left]
    have hc : ¬ (2 ^ k < 2 * 0 ∨ (2 * 0 = 2 ^ k ∧ m % 2 = 1)) := by
      rintro (h | ⟨h, _⟩) <;> omega
    rw [if_neg hc]

theorem f64_posInf : f64 posInf = posInf := by
  have h := f64_scaled (2 ^ 52) 972 (le_refl _) (by norm_num)
  rw [← posInf_eq, if_pos (le_refl _)] at h
  exact h

/-- Rounding is idempotent: `f64 n` is a `float64` value. -/
theorem f64_f64 (n : Nat) : f64 (f64 n) = f64 n := by
  by_cases hle : n ≤ 2 ^ 53
  · rw [f64_of_le hle, f64_of_le hle]
  · have hn : n ≠ 0 := by
      rintro rfl; exact hle (Nat.zero_le _)
    have hL1 : 2 ^ Nat.log2 n ≤ n := Nat.log2_self_le hn
    have hL2 : n < 2 ^ (Nat.log2 n + 1) := Nat.lt_log2_self
    have hL : 53 ≤ Nat.log2 n := by
      by_contra hc
      have : Nat.log2 n + 1 ≤ 53 := by omega
      have := Nat.pow_le_pow_right (show 0 < 2 by norm_num) this
      omega
    obtain ⟨e, he⟩ : ∃ e, Nat.log2 n = 52 + e := ⟨Nat.log2 n - 52, by omega⟩
    have hpos : 0 < 2 ^ e := Nat.two_pow_pos e
    have hq1 : 2 ^ 52 ≤ n / 2 ^ e := by
      rw [Nat.le_div_iff_mul_le hpos, ← pow_add, ← he]; exact hL1
    have hq2 : n / 2 ^ e < 2 ^ 53 := by
      rw [Nat.div_lt_iff_lt_mul hpos, ← pow_add, show 53 + e = Nat.log2 n + 1 by omega]
      exact hL2
    have key : ∀ q', (q' = n / 2 ^ e ∨ q' = n / 2 ^ e + 1) →
        f64 (if posInf ≤ q' * 2 ^ e then posInf else q' * 2 ^ e)
          = (if posInf ≤ q' * 2 ^ e then posInf else q' * 2 ^ e) := by
      intro q' hq'
      by_cases hcap : posInf ≤ q' * 2 ^ e
      · rw [if_pos hcap]; exact f64_posInf
      · rw [if_neg hcap]
        by_cases hq53 : q' < 2 ^ 53
        · rw [f64_scaled q' e (by omega) hq53, if_neg hcap]
        · have hqe : q' = 2 ^ 53 := by omega
          have e2 : q' * 2 ^ e = 2 ^ 52 * 2 ^ (e + 1) := by
            rw [hqe, pow_succ]; ring
          rw [e2] at hcap ⊢
          rw [f64_scaled (2 ^ 52) (e + 1) (le_refl _) (by norm_num), if_neg hcap]
    have hf : f64 n = (if posInf ≤ (if 2 ^ e < 2 * (n % 2 ^ e) ∨ (2 * (n % 2 ^ e) = 2 ^ e ∧ n / 2 ^ e % 2 = 1) then n / 2 ^ e + 1 else n / 2 ^ e) * 2 ^ e then posInf else (if 2 ^ e < 2 * (n % 2 ^ e) ∨ (2 * (n % 2 ^ e) = 2 ^ e ∧ n / 2 ^ e % 2 = 1) then n / 2 ^ e + 1 else n / 2 ^ e) * 2 ^ e) := by
      unfold f64
      rw [if_neg hle]
      simp only [he, Nat.add_sub_cancel_left]
    rw [hf]
    apply key
    split_ifs
    · exact Or.inr rfl
    · exact Or.inl rfl

theorem fadd_exact {a b : Nat} (h : a + b ≤ 2 ^ 53) : fadd a b = a + b := f64_of_le h

theorem fadd_zero_left {x : Nat} (h : f64 x = x) : fadd 0 x = x := by
  unfold fadd; rw [Nat.zero_add]; exact h

theorem f64_fadd (a b : Nat) : f64 (fadd a b) = fadd a b := f64_f64 _

/-- The first integer that is not a `float64` value rounds down (tie, even significand). -/
theorem f64_big : f64 (2 ^ 53 + 1) = 2 ^ 53 := by
  have hlog : Nat.log2 (2 ^ 53 + 1) = 53 := log2_eq_of_bounds (by norm_num) (by norm_num)
  unfold f64
  rw [if_neg (by norm_num), hlog]
  have : (2:Nat) ^ 53 < posInf := lt_posInf (le_refl _)
  norm_num
  omega

/-- While the running sum stays within `2 ^ 53`, the loop adds up the weights exactly. -/
theorem countLoop_sum (call : String → Outcome (Nat × Option String)) (tgt : String) :
    ∀ (res : List FileInfo) (count : Nat),
      (∀ fi ∈ res, fi.IsDir = true → ∃ r, call (tgt ++ "/" ++ fi.Name) = .ret r) →
      count + (res.map (weight call tgt)).sum ≤ 2 ^ 53 →
      countLoop call tgt res count = .ret (count + (res.map (weight call tgt)).sum, none) := by
  intro res
  induction res with
  | nil => intro count _ _; simp [countLoop]
  | cons fi res ih =>
    intro count hd hb
    simp only [List.map_cons, List.sum_cons] at hb ⊢
    by_cases hdir : fi.IsDir = true
    · obtain ⟨⟨c, e⟩, hr⟩ := hd fi (List.mem_cons_self _ _) hdir
      have hw : weight call tgt fi = c := by simp [weight, hdir, hr]
      rw [hw] at hb ⊢
      have hf : fadd count c = count + c := fadd_exact (by omega)
      simp only [countLoop, hdir, if_true, hr, hf]
      rw [ih (count + c) (fun x hx => hd x (List.mem_cons_of_mem _ hx)) (by omega)]
      simp [Nat.add_assoc]
    · have hw : weight call tgt fi = 1 := by simp [weight, hdir]
      rw [hw] at hb ⊢
      have hf : fadd count 1 = count + 1 := fadd_exact (by omega)
      simp only [countLoop, hdir, hf]
      rw [ih (count + 1) (fun x hx => hd x (List.mem_cons_of_mem _ hx)) (by omega)]
      simp [Nat.add_assoc]

theorem countLoop_perm (call : String → Outcome (Nat × Option String)) (tgt : String)
    {l res : List FileInfo} (hp : l.Perm res)
    (hd : ∀ fi ∈ res, fi.IsDir = true → ∃ r, call (tgt ++ "/" ++ fi.Name) = .ret r)
    (hb : (res.map (weight call tgt)).sum ≤ 2 ^ 53) :
    countLoop call tgt l 0 = .ret ((res.map (weight call tgt)).sum, none) := by
  have hs : (l.map (weight call tgt)).sum = (res.map (weight call tgt)).sum :=
    (hp.map _).sum_eq
  have := countLoop_sum call tgt l 0 (fun fi hfi => hd fi (hp.subset hfi)) (by omega)
  rw [this, hs, Nat.zero_add]

theorem subHostedP_sum (fs : FS) : ∀ (d : Dir) (p : String), SubHostedP fs p d →
    d.files ≤ 2 ^ 53 → ∀ fuel, d.depth ≤ fuel →
      (∀ fi ∈ d.infos, fi.IsDir = true → ∃ r, countDir fs fuel (p ++ "/" ++ fi.Name) = .ret r) ∧
      (d.infos.map (weight (countDir fs fuel) p)).sum = d.files := by
  intro d
  induction d with
  | nil => intro p _ _ fuel _; simp [Dir.infos, Dir.files]
  | file n r ih =>
    intro p h hb fuel hf
    simp only [Dir.files] at hb
    simp only [Dir.depth] at hf
    obtain ⟨h1, h2⟩ := ih p h (by omega) fuel hf
    refine ⟨?_, ?_⟩
    · intro fi hfi hdir
      simp only [Dir.infos, List.mem_cons] at hfi
      rcases hfi with rfl | hfi
      · simp at hdir
      · exact h1 fi hfi hdir
    · simp only [Dir.infos, List.map_cons, List.sum_cons, Dir.files, h2]
      simp [weight]
  | sub n c r ihc ihr =>
    intro p h hb fuel hf
    simp only [Dir.files] at hb
    simp only [Dir.depth] at hf
    obtain ⟨⟨⟨l, hl, hperm⟩, hc⟩, hr⟩ := h
    obtain ⟨fuel', rfl⟩ : ∃ k, fuel = k + 1 := ⟨fuel - 1, by omega⟩
    obtain ⟨c1, c2⟩ := ihc (p ++ "/" ++ n) hc (by omega) fuel' (by omega)
    obtain ⟨r1, r2⟩ := ihr p hr (by omega) (fuel' + 1) (by omega)
    have hcall : countDir fs (fuel' + 1) (p ++ "/" ++ n) = .ret (c.files, none) := by
      simp only [countDir, hl]
      rw [countLoop_perm _ _ hperm c1 (by omega), c2]
    refine ⟨?_, ?_⟩
    · intro fi hfi hdir
      simp only [Dir.infos, List.mem_cons] at hfi
      rcases hfi with rfl | hfi
      · exact ⟨_, hcall⟩
      · exact r1 fi hfi hdir
    · simp only [Dir.infos, List.map_cons, List.sum_cons, Dir.files, r2]
      simp [weight, hcall]

/-- The count of a hosted tree, whatever the order of the listings. -/
theorem countDir_hostedP (fs : FS) (p : String) (d : Dir) (l : List FileInfo)
    (hl : fs p = .entries l) (hperm : l.Perm d.infos) (hs : SubHostedP fs p d)
    (hb : d.files ≤ 2 ^ 53) (fuel : Nat) (hf : d.depth < fuel) :
    countDir fs fuel p = .ret (d.files, none) := by
  obtain ⟨fuel', rfl⟩ : ∃ k, fuel = k + 1 := ⟨fuel - 1, by omega⟩
  obtain ⟨c1, c2⟩ := subHostedP_sum fs d p hs hb fuel' (by omega)
  simp only [countDir, hl]
  rw [countLoop_perm _ _ hperm c1 (by omega), c2]

theorem SubHosted.toP (fs : FS) : ∀ (d : Dir) (p : String), SubHosted fs p d → SubHostedP fs p d := by
  intro d
  induction d with
  | nil => intro p _; trivial
  | file n r ih => intro p h; exact ih p h
  | sub n c r ihc ihr =>
    intro p h
    exact ⟨⟨⟨_, h.1.1, List.Perm.refl _⟩, ihc _ h.1.2⟩, ihr p h.2⟩

theorem SubHosted.reordered {fs1 fs2 : FS} (hr : Reordered fs1 fs2) :
    ∀ (d : Dir) (p : String), SubHosted fs1 p d → SubHostedP fs2 p d := by
  intro d
  induction d with
  | nil => intro p _; trivial
  | file n r ih => intro p h; exact ih p h
  | sub n c r ihc ihr =>
    intro p h
    refine ⟨⟨?_, ihc _ h.1.2⟩, ihr p h.2⟩
    have := hr (p ++ "/" ++ n)
    rw [h.1.1] at this
    cases h2 : fs2 (p ++ "/" ++ n) with
    | openErr => rw [h2] at this; exact this.elim
    | readErr => rw [h2] at this; exact this.elim
    | entries l => rw [h2] at this; exact ⟨l, rfl, List.Perm.symm this⟩

theorem Act.bind_apply {α β : Type} (m : Act α) (f : α → Act β) (s : Run) :
    (m >>= f) s = Act.bind m f s := rfl

theorem Act.pure_apply {α : Type} (a : α) (s : Run) :
    (Pure.pure a : Act α) s = .ret a s := rfl

/-- The run of `Collect` when the mutex is free and all six counts return. -/
theorem Collect_of_counts (fs : FS) (queueDir : String) (fuel : Nat) (s : Run)
    {i a m d h b : Nat} {ei ea em ed eh eb : Option String}
    (hm : s.e.mutex = false)
    (hi : countDir fs fuel (queueDir ++ "/incoming") = .ret (i, ei))
    (ha : countDir fs fuel (queueDir ++ "/active") = .ret (a, ea))
    (hmd : countDir fs fuel (queueDir ++ "/maildrop") = .ret (m, em))
    (hd : countDir fs fuel (queueDir ++ "/deferred") = .ret (d, ed))
    (hh : countDir fs fuel (queueDir ++ "/hold") = .ret (h, eh))
    (hb : countDir fs fuel (queueDir ++ "/bounce") = .ret (b, eb)) :
    Collect fs queueDir fuel s = .ret () (finish s queueDir i a m d h b) := by
  simp [Collect, scrape, Act.bind_apply, Act.bind, Act.pure_apply, mutexLock, mutexUnlock,
    callCountDir, gaugeSet, gaugeCollect, hm, hi, ha, hmd, hd, hh, hb, finish,
    Exporter.get, Exporter.put, Gauge.Set, Gauge.Collect]

/-- A run of `Collect` returns only when the mutex was free and all six counts returned. -/
theorem Collect_ret_inv (fs : FS) (queueDir : String) (fuel : Nat) (s s' : Run) (u : Unit)
    (hc : Collect fs queueDir fuel s = .ret u s') :
    s.e.mutex = false ∧ ∃ i a m d h b ei ea em ed eh eb,
      countDir fs fuel (queueDir ++ "/incoming") = .ret (i, ei) ∧
      countDir fs fuel (queueDir ++ "/active") = .ret (a, ea) ∧
      countDir fs fuel (queueDir ++ "/maildrop") = .ret (m, em) ∧
      countDir fs fuel (queueDir ++ "/deferred") = .ret (d, ed) ∧
      countDir fs fuel (queueDir ++ "/hold") = .ret (h, eh) ∧
      countDir fs fuel (queueDir ++ "/bounce") = .ret (b, eb) ∧
      s' = finish s queueDir i a m d h b := by
  cases hmx : s.e.mutex with
  | true => simp [Collect, Act.bind_apply, Act.bind, mutexLock, hmx] at hc
  | false =>
    refine ⟨rfl, ?_⟩
    rcases hi : countDir fs fuel (queueDir ++ "/incoming") with ⟨i, ei⟩ | _ | _
    on_goal 2 => simp [Collect, scrape, Act.bind_apply, Act.bind, Act.pure_apply, mutexLock,
      mutexUnlock, callCountDir, gaugeSet, gaugeCollect, hmx, hi] at hc
    on_goal 2 => simp [Collect, scrape, Act.bind_apply, Act.bind, Act.pure_apply, mutexLock,
      mutexUnlock, callCountDir, gaugeSet, gaugeCollect, hmx, hi] at hc
    rcases ha : countDir fs fuel (queueDir ++ "/active") with ⟨a, ea⟩ | _ | _
    on_goal 2 => simp [Collect, scrape, Act.bind_apply, Act.bind, Act.pure_apply, mutexLock,
      mutexUnlock, callCountDir, gaugeSet, gaugeCollect, hmx, hi, ha] at hc
    on_goal 2 => simp [Collect, scrape, Act.bind_apply, Act.bind, Act.pure_apply, mutexLock,
      mutexUnlock, callCountDir, gaugeSet, gaugeCollect, hmx, hi, ha] at hc
    rcases hmd : countDir fs fuel (queueDir ++ "/maildrop") with ⟨m, em⟩ | _ | _
    on_goal 2 => simp [Collect, scrape, Act.bind_apply, Act.bind, Act.pure_apply, mutexLock,
      mutexUnlock, callCountDir, gaugeSet, gaugeCollect, hmx, hi, ha, hmd] at hc
    on_goal 2 => simp [Collect, scrape, Act.bind_apply, Act.bind, Act.pure_apply, mutexLock,
      mutexUnlock, callCountDir, gaugeSet, gaugeCollect, hmx, hi, ha, hmd] at hc
    rcases hd : countDir fs fuel (queueDir ++ "/deferred") with ⟨d, ed⟩ | _ | _
    on_goal 2 => simp [Collect, scrape, Act.bind_apply, Act.bind, Act.pure_apply, mutexLock,
      mutexUnlock, callCountDir, gaugeSet, gaugeCollect, hmx, hi, ha, hmd, hd] at hc
    on_goal 2 => simp [Collect, scrape, Act.bind_apply, Act.bind, Act.pure_apply, mutexLock,
      mutexUnlock, callCountDir, gaugeSet, gaugeCollect, hmx, hi, ha, hmd, hd] at hc
    rcases hh : countDir fs fuel (queueDir ++ "/hold") with ⟨h, eh⟩ | _ | _
    on_goal 2 => simp [Collect, scrape, Act.bind_apply, Act.bind, Act.pure_apply, mutexLock,
      mutexUnlock, callCountDir, gaugeSet, gaugeCollect, hmx, hi, ha, hmd, hd, hh] at hc
    on_goal 2 => simp [Collect, scrape, Act.bind_apply, Act.bind, Act.pure_apply, mutexLock,
      mutexUnlock, callCountDir, gaugeSet, gaugeCollect, hmx, hi, ha, hmd, hd, hh] at hc
    rcases hb : countDir fs fuel (queueDir ++ "/bounce") with ⟨b, eb⟩ | _ | _
    on_goal 2 => simp [Collect, scrape, Act.bind_apply, Act.bind, Act.pure_apply, mutexLock,
      mutexUnlock, callCountDir, gaugeSet, gaugeCollect, hmx, hi, ha, hmd, hd, hh, hb] at hc
    on_goal 2 => simp [Collect, scrape, Act.bind_apply, Act.bind, Act.pure_apply, mutexLock,
      mutexUnlock, callCountDir, gaugeSet, gaugeCollect, hmx, hi, ha, hmd, hd, hh, hb] at hc
    rw [Collect_of_counts fs queueDir fuel s hmx hi ha hmd hd hh hb] at hc
    injection hc with _ hs
    exact ⟨i, a, m, d, h, b, ei, ea, em, ed, eh, eb, rfl, rfl, rfl, rfl, rfl, rfl, hs.symm⟩

theorem countLoop_ret (call : String → Outcome (Nat × Option String)) (tgt : String) :
    ∀ (res : List FileInfo) (count : Nat),
      (∀ fi ∈ res, fi.IsDir = true → ∃ r, call (tgt ++ "/" ++ fi.Name) = .ret r) →
      ∃ v, countLoop call tgt res count = .ret (v, none) := by
  intro res
  induction res with
  | nil => intro count _; exact ⟨count, rfl⟩
  | cons fi res ih =>
    intro count hd
    have hd' : ∀ x ∈ res, x.IsDir = true → ∃ r, call (tgt ++ "/" ++ x.Name) = .ret r :=
      fun x hx => hd x (List.mem_cons_of_mem _ hx)
    by_cases hdir : fi.IsDir = true
    · obtain ⟨⟨c, e⟩, hr⟩ := hd fi (List.mem_cons_self _ _) hdir
      simp only [countLoop, hdir, if_true, hr]
      exact ih _ hd'
    · simp only [countLoop, hdir]
      exact ih _ hd'

theorem countLoop_rep (call : String → Outcome (Nat × Option String)) (tgt : String) :
    ∀ (res : List FileInfo) (count v : Nat) (e : Option String), f64 count = count →
      countLoop call tgt res count = .ret (v, e) → f64 v = v ∧ e = none := by
  intro res
  induction res with
  | nil =>
    intro count v e hc h
    simp only [countLoop, Outcome.ret.injEq, Prod.mk.injEq] at h
    exact ⟨h.1 ▸ hc, h.2.symm⟩
  | cons fi res ih =>
    intro count v e hc h
    by_cases hdir : fi.IsDir = true
    · simp only [countLoop, hdir, if_true] at h
      rcases hr : call (tgt ++ "/" ++ fi.Name) with ⟨c, ec⟩ | _ | _
      · rw [hr] at h
        exact ih _ v e (f64_fadd _ _) h
      · rw [hr] at h; cases h
      · rw [hr] at h; cases h
    · simp only [countLoop, hdir] at h
      exact ih _ v e (f64_fadd _ _) h

/-- Every count `countDir` returns is a `float64` value, and the error is `nil`. -/
theorem countDir_rep (fs : FS) (fuel : Nat) (tgt : String) (v : Nat) (e : Option String)
    (h : countDir fs fuel tgt = .ret (v, e)) : f64 v = v ∧ e = none := by
  cases fuel with
  | zero => cases h
  | succ k =>
    simp only [countDir] at h
    cases hs : fs tgt with
    | openErr => rw [hs] at h; cases h
    | readErr => rw [hs] at h; cases h
    | entries res =>
      rw [hs] at h
      exact countLoop_rep _ _ res 0 v e (f64_of_le (Nat.zero_le _)) h

theorem subHostedP_ret (fs : FS) : ∀ (d : Dir) (p : String), SubHostedP fs p d →
    ∀ fuel, d.depth ≤ fuel → ∀ fi ∈ d.infos, fi.IsDir = true →
      ∃ r, countDir fs fuel (p ++ "/" ++ fi.Name) = .ret r := by
  intro d
  induction d with
  | nil => intro p _ fuel _ fi hfi; simp [Dir.infos] at hfi
  | file n r ih =>
    intro p h fuel hf fi hfi hdir
    simp only [Dir.depth] at hf
    simp only [Dir.infos, List.mem_cons] at hfi
    rcases hfi with rfl | hfi
    · simp at hdir
    · exact ih p h fuel hf fi hfi hdir
  | sub n c r ihc ihr =>
    intro p h fuel hf fi hfi hdir
    simp only [Dir.depth] at hf
    obtain ⟨⟨⟨l, hl, hperm⟩, hc⟩, hr⟩ := h
    simp only [Dir.infos, List.mem_cons] at hfi
    rcases hfi with rfl | hfi
    · obtain ⟨fuel', rfl⟩ : ∃ k, fuel = k + 1 := ⟨fuel - 1, by omega⟩
      have c1 := ihc (p ++ "/" ++ n) hc fuel' (by omega)
      obtain ⟨v, hv⟩ := countLoop_ret (countDir fs fuel') (p ++ "/" ++ n) l 0
        (fun x hx => c1 x (hperm.subset hx))
      exact ⟨(v, none), by simp only [countDir, hl]; exact hv⟩
    · exact ihr p hr fuel (by omega) fi hfi hdir

/-- On a hosted tree the call returns, for any fuel above the depth of the tree. -/
theorem countDir_ret_of_hosts (fs : FS) (p : String) (d : Dir) (h : Hosts fs p d)
    (fuel : Nat) (hf : d.depth < fuel) : ∃ v, countDir fs fuel p = .ret (v, none) := by
  obtain ⟨fuel', rfl⟩ : ∃ k, fuel = k + 1 := ⟨fuel - 1, by omega⟩
  have c1 := subHostedP_ret fs d p (SubHosted.toP fs d p h.2) fuel' (by omega)
  obtain ⟨v, hv⟩ := countLoop_ret (countDir fs fuel') p d.infos 0 c1
  exact ⟨v, by simp only [countDir, h.1]; exact hv⟩

theorem flat_infos (n : Nat) : ∀ fi ∈ (flat n).infos, fi.IsDir = false := by
  induction n with
  | zero => intro fi hfi; simp [flat, Dir.infos] at hfi
  | succ k ih =>
    intro fi hfi
    simp only [flat, Dir.infos, List.mem_cons] at hfi
    rcases hfi with rfl | hfi
    · rfl
    · exact ih fi hfi

theorem flat_length (n : Nat) : (flat n).infos.length = n := by
  induction n with
  | zero => rfl
  | succ k ih => simp [flat, Dir.infos, ih]

theorem flat_files (n : Nat) : (flat n).files = n := by
  induction n with
  | zero => rfl
  | succ k ih => simp [flat, Dir.files, ih, Nat.add_comm]

theorem flat_depth (n : Nat) : (flat n).depth = 0 := by
  induction n with
  | zero => rfl
  | succ k ih => simp [flat, Dir.depth, ih]

theorem flat_subHosted (fs : FS) (p : String) (n : Nat) : SubHosted fs p (flat n) := by
  induction n with
  | zero => trivial
  | succ k ih => exact ih

theorem fadd_one_sat {c : Nat} (h : c ≤ 2 ^ 53) : fadd c 1 = min (c + 1) (2 ^ 53) := by
  by_cases hc : c + 1 ≤ 2 ^ 53
  · rw [fadd_exact hc, Nat.min_eq_left hc]
  · have : c = 2 ^ 53 := by omega
    subst this
    rw [Nat.min_eq_right (Nat.le_succ _)]
    exact f64_big

/-- Over a listing without subdirectories the loop counts up to `2 ^ 53` and stays there. -/
theorem countLoop_files (call : String → Outcome (Nat × Option String)) (tgt : String) :
    ∀ (l : List FileInfo) (c : Nat), (∀ fi ∈ l, fi.IsDir = false) → c ≤ 2 ^ 53 →
      countLoop call tgt l c = .ret (min (c + l.length) (2 ^ 53), none) := by
  intro l
  induction l with
  | nil => intro c _ hc; simp only [countLoop, List.length_nil, Nat.add_zero, Nat.min_eq_left hc]
  | cons fi l ih =>
    intro c hl hc
    have hfi : fi.IsDir = false := hl fi (List.mem_cons_self _ _)
    simp only [countLoop, hfi, Bool.false_eq_true, if_false, List.length_cons]
    rw [fadd_one_sat hc, ih _ (fun x hx => hl x (List.mem_cons_of_mem _ hx)) (Nat.min_le_right _ _)]
    congr 2
    omega

theorem Describe_fst (e : Exporter) (ch : List GaugeOpts) : (Describe e ch).1 = e := rfl

theorem Describe_snd (e : Exporter) (ch : List GaugeOpts) :
    (Describe e ch).2 = ch ++ [e.totalQ.opts, e.incomingQ.opts, e.activeQ.opts,
      e.maildropQ.opts, e.deferredQ.opts, e.holdQ.opts, e.bounceQ.opts] := by
  simp [Describe, Gauge.Describe]

/-- A call of `Collect`, however it ends, leaves the seven descriptors as they were. -/
theorem Collect_preserves_descs (fs : FS) (queueDir : String) (fuel : Nat) (s : Run)
    (ch : List GaugeOpts) :
    (Describe (Collect fs queueDir fuel s).state.e ch).2 = (Describe s.e ch).2 := by
  simp only [Describe_snd]
  cases hmx : s.e.mutex with
  | true => simp [Collect, Act.bind_apply, Act.bind, mutexLock, hmx, Step.state]
  | false =>
    rcases hi : countDir fs fuel (queueDir ++ "/incoming") with ⟨i, ei⟩ | _ | _
    on_goal 2 => simp [Collect, scrape, Act.bind_apply, Act.bind, Act.pure_apply, mutexLock,
      mutexUnlock, callCountDir, gaugeSet, gaugeCollect, hmx, hi, Step.state]
    on_goal 2 => simp [Collect, scrape, Act.bind_apply, Act.bind, Act.pure_apply, mutexLock,
      mutexUnlock, callCountDir, gaugeSet, gaugeCollect, hmx, hi, Step.state]
    rcases ha : countDir fs fuel (queueDir ++ "/active") with ⟨a, ea⟩ | _ | _
    on_goal 2 => simp [Collect, scrape, Act.bind_apply, Act.bind, Act.pure_apply, mutexLock,
      mutexUnlock, callCountDir, gaugeSet, gaugeCollect, hmx, hi, ha, Step.state,
      Exporter.get, Exporter.put, Gauge.Set]
    on_goal 2 => simp [Collect, scrape, Act.bind_apply, Act.bind, Act.pure_apply, mutexLock,
      mutexUnlock, callCountDir, gaugeSet, gaugeCollect, hmx, hi, ha, Step.state,
      Exporter.get, Exporter.put, Gauge.Set]
    rcases hmd : countDir fs fuel (queueDir ++ "/maildrop") with ⟨m, em⟩ | _ | _
    on_goal 2 => simp [Collect, scrape, Act.bind_apply, Act.bind, Act.pure_apply, mutexLock,
      mutexUnlock, callCountDir, gaugeSet, gaugeCollect, hmx, hi, ha, hmd, Step.state,
      Exporter.get, Exporter.put, Gauge.Set]
    on_goal 2 => simp [Collect, scrape, Act.bind_apply, Act.bind, Act.pure_apply, mutexLock,
      mutexUnlock, callCountDir, gaugeSet, gaugeCollect, hmx, hi, ha, hmd, Step.state,
      Exporter.get, Exporter.put, Gauge.Set]
    rcases hd : countDir fs fuel (queueDir ++ "/deferred") with ⟨d, ed⟩ | _ | _
    on_goal 2 => simp [Collect, scrape, Act.bind_apply, Act.bind, Act.pure_apply, mutexLock,
      mutexUnlock, callCountDir, gaugeSet, gaugeCollect, hmx, hi, ha, hmd, hd, Step.state,
      Exporter.get, Exporter.put, Gauge.Set]
    on_goal 2 => simp [Collect, scrape, Act.bind_apply, Act.bind, Act.pure_apply, mutexLock,
      mutexUnlock, callCountDir, gaugeSet, gaugeCollect, hmx, hi, ha, hmd, hd, Step.state,
      Exporter.get, Exporter.put, Gauge.Set]
    rcases hh : countDir fs fuel (queueDir ++ "/hold") with ⟨h, eh⟩ | _ | _
    on_goal 2 => simp [Collect, scrape, Act.bind_apply, Act.bind, Act.pure_apply, mutexLock,
      mutexUnlock, callCountDir, gaugeSet, gaugeCollect, hmx, hi, ha, hmd, hd, hh, Step.state,
      Exporter.get, Exporter.put, Gauge.Set]
    on_goal 2 => simp [Collect, scrape, Act.bind_apply, Act.bind, Act.pure_apply, mutexLock,
      mutexUnlock, callCountDir, gaugeSet, gaugeCollect, hmx, hi, ha, hmd, hd, hh, Step.state,
      Exporter.get, Exporter.put, Gauge.Set]
    rcases hb : countDir fs fuel (queueDir ++ "/bounce") with ⟨b, eb⟩ | _ | _
    on_goal 2 => simp [Collect, scrape, Act.bind_apply, Act.bind, Act.pure_apply, mutexLock,
      mutexUnlock, callCountDir, gaugeSet, gaugeCollect, hmx, hi, ha, hmd, hd, hh, hb,
      Step.state, Exporter.get, Exporter.put, Gauge.Set]
    on_goal 2 => simp [Collect, scrape, Act.bind_apply, Act.bind, Act.pure_apply, mutexLock,
      mutexUnlock, callCountDir, gaugeSet, gaugeCollect, hmx, hi, ha, hmd, hd, hh, hb,
      Step.state, Exporter.get, Exporter.put, Gauge.Set]
    rw [Collect_of_counts fs queueDir fuel s hmx hi ha hmd hd hh hb]
    simp [finish, Step.state, Gauge.Set]

theorem collects_preserves_descs (queueDir : String) (ch : List GaugeOpts) :
    ∀ (calls : List (FS × Nat)) (e : Exporter),
      (Describe (collects queueDir calls e) ch).2 = (Describe e ch).2 := by
  intro calls
  induction calls with
  | nil => intro e; rfl
  | cons c rest ih =>
    intro e
    obtain ⟨fs, fuel⟩ := c
    have hp := Collect_preserves_descs fs queueDir fuel ⟨e, [], []⟩ ch
    simp only [collects]
    cases hr : Collect fs queueDir fuel ⟨e, [], []⟩ with
    | ret u s => rw [hr] at hp; simp only [Step.state] at hp; rw [ih s.e, hp]
    | exit s => rw [hr] at hp; exact hp
    | deep s => rw [hr] at hp; exact hp
    | blocked s => rw [hr] at hp; exact hp

theorem lt_posInf_of_le_pow {n k : Nat} (hk : k < 1024) (h : n ≤ 2 ^ k) : n < posInf := by
  have key : ∀ j, k < j → n < 2 ^ j := fun j hj =>
    lt_of_le_of_lt h (Nat.pow_lt_pow_right (by norm_num) hj)
  exact key 1024 hk

theorem f64_two_big : f64 (2 ^ 53 + 2) = 2 ^ 53 + 2 := by
  have h := f64_scaled (2 ^ 52 + 1) 1 (Nat.le_succ _) (by norm_num)
  have hlt : (2 ^ 52 + 1) * 2 ^ 1 < posInf :=
    lt_posInf_of_le_pow (k := 54) (by norm_num) (by norm_num)
  rw [if_neg (by omega)] at h
  have e : 2 ^ 53 + 2 = (2 ^ 52 + 1) * 2 ^ 1 := by norm_num
  rw [e, h]

theorem fadd_big_one : fadd (2 ^ 53) 1 = 2 ^ 53 := f64_big

theorem countDir_sub_flat (fs : FS) (n : Nat) (p : String)
    (h : fs p = .entries (flat n).infos) (fuel : Nat) :
    countDir fs (fuel + 1) p = .ret (min n (2 ^ 53), none) := by
  simp only [countDir, h]
  rw [countLoop_files _ _ _ 0 (flat_infos n) (Nat.zero_le _), flat_length, Nat.zero_add]

theorem reordered_fsNested : Reordered fsNested fsReordered := by
  intro p
  unfold fsNested fsReordered
  by_cases h1 : p = "/q/deferred"
  · simp only [h1, if_true, DirState.Reordered]
    decide
  · by_cases h2 : p = "/q/deferred/a"
    · subst h2
      exact (by decide : List.Perm [(⟨"m1", false⟩ : FileInfo), ⟨"m2", false⟩]
        [⟨"m2", false⟩, ⟨"m1", false⟩])
    · simp only [h1, h2, if_false, DirState.Reordered]

theorem fsWide_root (K m : Nat) (root : Dir) : fsWide K m root "/q" = .entries root.infos := by
  unfold fsWide; rw [if_pos rfl]

theorem fsWide_sub (K m : Nat) (root : Dir) (i : Nat) (hi : i < K) :
    fsWide K m root ("/q" ++ "/" ++ toString i) = .entries (flat m).infos := by
  have hne : "/q" ++ "/" ++ toString i ≠ "/q" := by
    intro h
    have hl := congrArg String.length h
    rw [String.length_append, String.length_append] at hl
    have h2 : ("/q" : String).length = 2 := by decide
    have h1 : ("/" : String).length = 1 := by decide
    omega
  have hmem : "/q" ++ "/" ++ toString i ∈ (List.range K).map (fun i => "/q/" ++ toString i) := by
    refine List.mem_map.2 ⟨i, List.mem_range.2 hi, ?_⟩
    have : ("/q" : String) ++ "/" = "/q/" := by decide
    rw [this]
  unfold fsWide
  rw [if_neg hne, if_pos hmem]

theorem wide_subHosted (K m : Nat) (root : Dir) :
    ∀ (k : Nat) (rest : Dir), k ≤ K → SubHosted (fsWide K m root) "/q" rest →
      SubHosted (fsWide K m root) "/q" (wide m k rest) := by
  intro k
  induction k with
  | zero => intro rest _ h; exact h
  | succ j ih =>
    intro rest hk h
    exact ⟨⟨fsWide_sub K m root j (by omega), flat_subHosted _ _ _⟩, ih rest (by omega) h⟩

theorem wide_files (m : Nat) : ∀ (k : Nat) (rest : Dir),
    (wide m k rest).files = k * m + rest.files := by
  intro k
  induction k with
  | zero => intro rest; simp [wide]
  | succ j ih =>
    intro rest
    simp only [wide, Dir.files, ih, flat_files]
    ring

theorem wide_infos (m : Nat) : ∀ (k : Nat) (rest : Dir),
    (wide m k rest).infos = (wide m k .nil).infos ++ rest.infos := by
  intro k
  induction k with
  | zero => intro rest; simp [wide, Dir.infos]
  | succ j ih =>
    intro rest
    simp only [wide, Dir.infos, List.cons_append]
    rw [ih rest]

theorem countLoop_wide (K m : Nat) (root : Dir) (hm : m ≤ 2 ^ 53) (fuel : Nat) :
    ∀ (k : Nat) (rest : Dir) (c : Nat), k ≤ K → (∀ j, j ≤ k → f64 (c + j * m) = c + j * m) →
      countLoop (countDir (fsWide K m root) (fuel + 1)) "/q" (wide m k rest).infos c =
        countLoop (countDir (fsWide K m root) (fuel + 1)) "/q" rest.infos (c + k * m) := by
  intro k
  induction k with
  | zero => intro rest c _ _; simp [wide]
  | succ j ih =>
    intro rest c hk hrep
    have hcall : countDir (fsWide K m root) (fuel + 1) ("/q" ++ "/" ++ toString j)
        = .ret (m, none) := by
      rw [countDir_sub_flat _ m _ (fsWide_sub K m root j (by omega)) fuel, Nat.min_eq_left hm]
    have hadd : fadd c m = c + m := by
      have := hrep 1 (by omega)
      rw [Nat.one_mul] at this
      exact this
    simp only [wide, Dir.infos, countLoop, if_true, hcall, hadd]
    rw [ih rest (c + m) (by omega) (fun i hi => by
      have := hrep (i + 1) (by omega)
      rw [show c + m + i * m = c + (i + 1) * m by ring]
      exact this)]
    congr 1
    ring

theorem countDir_dirsFirst (K m fuel : Nat) (hm : m ≤ 2 ^ 53) (hKm : K * m = 2 ^ 53) :
    countDir (fsWide K m (dirsFirst K m)) (fuel + 2) "/q" = .ret (2 ^ 53, none) := by
  rw [countDir, fsWide_root]
  show countLoop (countDir _ (fuel + 1)) "/q" _ 0 = _
  unfold dirsFirst
  rw [countLoop_wide K m _ hm fuel K _ 0 (le_refl _) (fun j hj => by
    apply f64_of_le
    have : j * m ≤ K * m := Nat.mul_le_mul_right _ hj
    omega)]
  rw [Nat.zero_add, hKm]
  simp only [Dir.infos, countLoop, Bool.false_eq_true, if_false, fadd_big_one]

theorem countDir_filesFirst (K m fuel : Nat) (hm2 : 2 ≤ m) (hm : m ≤ 2 ^ 53)
    (hKm : K * m = 2 ^ 53) :
    countDir (fsWide K m (filesFirst K m)) (fuel + 2) "/q" = .ret (2 ^ 53 + 2, none) := by
  rw [countDir, fsWide_root]
  show countLoop (countDir _ (fuel + 1)) "/q" _ 0 = _
  unfold filesFirst
  have e1 : fadd (fadd 0 1) 1 = 2 := by
    rw [fadd_exact (a := 0) (by norm_num), fadd_exact (by norm_num)]
  simp only [Dir.infos, countLoop, Bool.false_eq_true, if_false, e1]
  rw [countLoop_wide K m _ hm fuel K _ 2 (le_refl _) (fun j hj => by
    by_cases hjK : j = K
    · subst hjK
      rw [hKm, Nat.add_comm]; exact f64_two_big
    · apply f64_of_le
      have h1 : j + 1 ≤ K := by omega
      have h2 : (j + 1) * m ≤ K * m := Nat.mul_le_mul_right _ h1
      rw [Nat.succ_mul] at h2
      omega)]
  rw [hKm, Nat.add_comm 2 (2 ^ 53)]
  simp only [Dir.infos, countLoop]

theorem hosts_dirsFirst (K m : Nat) :
    Hosts (fsWide K m (dirsFirst K m)) "/q" (dirsFirst K m) :=
  ⟨fsWide_root _ _ _, wide_subHosted K m _ K _ (le_refl _) trivial⟩

theorem DirState.Reordered.refl (s : DirState) : s.Reordered s := by
  cases s with
  | openErr => trivial
  | readErr => trivial
  | entries l => exact List.Perm.refl l

theorem reordered_dirsFirst_filesFirst (K m : Nat) :
    Reordered (fsWide K m (dirsFirst K m)) (fsWide K m (filesFirst K m)) := by
  intro p
  by_cases hp : p = "/q"
  · subst hp
    rw [fsWide_root, fsWide_root]
    show List.Perm _ _
    unfold dirsFirst filesFirst
    rw [wide_infos]
    simp only [Dir.infos]
    exact List.perm_append_comm
  · have : fsWide K m (dirsFirst K m) p = fsWide K m (filesFirst K m) p := by
      unfold fsWide; rw [if_neg hp, if_neg hp]
    rw [this]
    exact DirState.Reordered.refl _

theorem dirsFirst_files (K m : Nat) : (dirsFirst K m).files = K * m + 2 := by
  unfold dirsFirst
  rw [wide_files]
  simp only [Dir.files]

theorem countDir_dirsFirst_shallow (K m : Nat) (hK : 0 < K) :
    countDir (fsWide K m (dirsFirst K m)) 1 "/q" = .deep := by
  obtain ⟨k, rfl⟩ : ∃ k, K = k + 1 := ⟨K - 1, by omega⟩
  rw [countDir, fsWide_root]
  show countLoop (countDir _ 0) "/q" _ 0 = _
  unfold dirsFirst
  simp only [wide, Dir.infos, countLoop, countDir, if_true]

theorem hosts_filesFirst (K m : Nat) :
    Hosts (fsWide K m (filesFirst K m)) "/q" (filesFirst K m) :=
  ⟨fsWide_root _ _ _, wide_subHosted K m _ K _ (le_refl _) trivial⟩

/-! ## The claims -/

/-- Claim C1 as stated fails: the directory `/q` lists `2 ^ 27` subdirectories of `2 ^ 26`
files each and then two files; every directory can be opened and listed.  The tree holds
`2 ^ 53 + 2` files, which is a `float64` value, yet `countDir` returns `2 ^ 53` with any
fuel that suffices for the recursion: once `count` is `2 ^ 53`, `count++` rounds back to
`2 ^ 53`. -/
theorem countDir_inexact_above_2_53 :
    Hosts (fsWide (2 ^ 27) (2 ^ 26) (dirsFirst (2 ^ 27) (2 ^ 26))) "/q"
      (dirsFirst (2 ^ 27) (2 ^ 26)) ∧
    (dirsFirst (2 ^ 27) (2 ^ 26)).files = 2 ^ 53 + 2 ∧
    f64 (2 ^ 53 + 2) = 2 ^ 53 + 2 ∧
    (∀ fuel, countDir (fsWide (2 ^ 27) (2 ^ 26) (dirsFirst (2 ^ 27) (2 ^ 26))) (fuel + 2) "/q"
      = .ret (2 ^ 53, none)) ∧
    ∀ fuel, countDir (fsWide (2 ^ 27) (2 ^ 26) (dirsFirst (2 ^ 27) (2 ^ 26))) fuel "/q"
      ≠ .ret ((dirsFirst (2 ^ 27) (2 ^ 26)).files, none) := by
  have hf : (dirsFirst (2 ^ 27) (2 ^ 26)).files = 2 ^ 53 + 2 := by
    rw [dirsFirst_files]; norm_num
  have hc : ∀ fuel, countDir (fsWide (2 ^ 27) (2 ^ 26) (dirsFirst (2 ^ 27) (2 ^ 26)))
      (fuel + 2) "/q" = .ret (2 ^ 53, none) :=
    fun fuel => countDir_dirsFirst _ _ fuel (by norm_num) (by norm_num)
  refine ⟨hosts_dirsFirst _ _, hf, f64_two_big, hc, ?_⟩
  intro fuel
  rw [hf]
  match fuel with
  | 0 => intro h; cases h
  | 1 => rw [countDir_dirsFirst_shallow _ _ (by norm_num)]; intro h; cases h
  | k + 2 =>
    rw [hc k]
    intro h
    injection h with h
    injection h with h
    omega

/-- Claim C1, amended: for every finite directory tree with at most `2 ^ 53` non-directory
entries in which every directory can be opened and listed, `countDir` on the root returns
exactly the number of non-directory entries of the whole subtree, with no error, whatever
the nesting depth (any fuel above the depth of the tree) and however the files are spread
over the subdirectories. -/
theorem countDir_counts_files (fs : FS) (p : String) (d : Dir) (h : Hosts fs p d)
    (hb : d.files ≤ 2 ^ 53) (fuel : Nat) (hf : d.depth < fuel) :
    countDir fs fuel p = .ret (d.files, none) :=
  countDir_hostedP fs p d d.infos h.1 (List.Perm.refl _) (SubHosted.toP fs d p h.2) hb fuel hf

/-- The scenario of claim C1: `/q/deferred` holds a subdirectory with 2 files and one
sibling file, and `countDir` returns 3. -/
theorem countDir_counts_files_witness :
    Hosts fsNested "/q/deferred" dirNested ∧ dirNested.files = 3 ∧
      countDir fsNested 2 "/q/deferred" = .ret (3, none) :=
  ⟨by decide, by decide,
    countDir_counts_files fsNested "/q/deferred" dirNested (by decide) (by decide) 2 (by decide)⟩

/-- Claim C2: when the six category subdirectories of the queue root are readable trees and
the mutex is free, one `Collect` returns and each category gauge then holds the result of
`countDir` on `queueDir/<category>`, its own directory. -/
theorem Collect_category_gauges (fs : FS) (queueDir : String) (fuel : Nat) (s : Run)
    (dI dA dM dD dH dB : Dir) (hm : s.e.mutex = false)
    (hI : Hosts fs (queueDir ++ "/incoming") dI) (hA : Hosts fs (queueDir ++ "/active") dA)
    (hM : Hosts fs (queueDir ++ "/maildrop") dM) (hD : Hosts fs (queueDir ++ "/deferred") dD)
    (hH : Hosts fs (queueDir ++ "/hold") dH) (hB : Hosts fs (queueDir ++ "/bounce") dB)
    (fI : dI.depth < fuel) (fA : dA.depth < fuel) (fM : dM.depth < fuel)
    (fD : dD.depth < fuel) (fH : dH.depth < fuel) (fB : dB.depth < fuel) :
    ∃ s', Collect fs queueDir fuel s = .ret () s' ∧
      countDir fs fuel (queueDir ++ "/incoming") = .ret (s'.e.incomingQ.val, none) ∧
      countDir fs fuel (queueDir ++ "/active") = .ret (s'.e.activeQ.val, none) ∧
      countDir fs fuel (queueDir ++ "/maildrop") = .ret (s'.e.maildropQ.val, none) ∧
      countDir fs fuel (queueDir ++ "/deferred") = .ret (s'.e.deferredQ.val, none) ∧
      countDir fs fuel (queueDir ++ "/hold") = .ret (s'.e.holdQ.val, none) ∧
      countDir fs fuel (queueDir ++ "/bounce") = .ret (s'.e.bounceQ.val, none) := by
  obtain ⟨i, hi⟩ := countDir_ret_of_hosts fs _ dI hI fuel fI
  obtain ⟨a, ha⟩ := countDir_ret_of_hosts fs _ dA hA fuel fA
  obtain ⟨m, hmd⟩ := countDir_ret_of_hosts fs _ dM hM fuel fM
  obtain ⟨d, hd⟩ := countDir_ret_of_hosts fs _ dD hD fuel fD
  obtain ⟨h, hh⟩ := countDir_ret_of_hosts fs _ dH hH fuel fH
  obtain ⟨b, hb⟩ := countDir_ret_of_hosts fs _ dB hB fuel fB
  exact ⟨_, Collect_of_counts fs queueDir fuel s hm hi ha hmd hd hh hb, hi, ha, hmd, hd, hh, hb⟩

/-- The scenario of claim C2: `incoming` with 3 files, `active` with 1 file and the other
four empty; the values emitted are total 4, incoming 3, active 1 and 0 for the rest. -/
theorem Collect_category_gauges_witness :
    (∃ s', Collect fsA "/q" 1 ⟨NewPostfixExporter, [], []⟩ = .ret () s' ∧
      countDir fsA 1 ("/q" ++ "/incoming") = .ret (s'.e.incomingQ.val, none) ∧
      countDir fsA 1 ("/q" ++ "/active") = .ret (s'.e.activeQ.val, none) ∧
      countDir fsA 1 ("/q" ++ "/maildrop") = .ret (s'.e.maildropQ.val, none) ∧
      countDir fsA 1 ("/q" ++ "/deferred") = .ret (s'.e.deferredQ.val, none) ∧
      countDir fsA 1 ("/q" ++ "/hold") = .ret (s'.e.holdQ.val, none) ∧
      countDir fsA 1 ("/q" ++ "/bounce") = .ret (s'.e.bounceQ.val, none)) ∧
    (Collect fsA "/q" 1 ⟨NewPostfixExporter, [], []⟩).state.ch.map Metric.value
      = [4, 3, 1, 0, 0, 0, 0] :=
  ⟨Collect_category_gauges fsA "/q" 1 ⟨NewPostfixExporter, [], []⟩
      dirIncoming dirActive .nil .nil .nil .nil rfl
      (by decide) (by decide) (by decide) (by decide) (by decide) (by decide)
      (by decide) (by decide) (by decide) (by decide) (by decide) (by decide),
    by decide⟩

/-- Claim C3: for every filesystem state and every prior state, after a `Collect` that
returned, the total gauge equals the `float64` sum incoming + active + maildrop + deferred +
hold + bounce of the six category gauges as they stand after that call; that sum is the
exact one whenever the exact sum is at most `2 ^ 53`. -/
theorem Collect_total_eq_sum (fs : FS) (queueDir : String) (fuel : Nat) (s s' : Run) (u : Unit)
    (hc : Collect fs queueDir fuel s = .ret u s') :
    s'.e.totalQ.val =
      fadd (fadd (fadd (fadd (fadd s'.e.incomingQ.val s'.e.activeQ.val) s'.e.maildropQ.val)
        s'.e.deferredQ.val) s'.e.holdQ.val) s'.e.bounceQ.val ∧
    (s'.e.incomingQ.val + s'.e.activeQ.val + s'.e.maildropQ.val + s'.e.deferredQ.val
        + s'.e.holdQ.val + s'.e.bounceQ.val ≤ 2 ^ 53 →
      s'.e.totalQ.val = s'.e.incomingQ.val + s'.e.activeQ.val + s'.e.maildropQ.val
        + s'.e.deferredQ.val + s'.e.holdQ.val + s'.e.bounceQ.val) := by
  obtain ⟨_, i, a, m, d, h, b, ei, ea, em, ed, eh, eb, hi, -, -, -, -, -, rfl⟩ :=
    Collect_ret_inv fs queueDir fuel s s' u hc
  have hrep : fadd 0 i = i := fadd_zero_left (countDir_rep fs fuel _ i ei hi).1
  simp only [finish, Gauge.Set, hrep]
  refine ⟨trivial, fun hle => ?_⟩
  rw [fadd_exact (a := i) (by omega), fadd_exact (a := i + a) (by omega),
    fadd_exact (a := i + a + m) (by omega), fadd_exact (a := i + a + m + d) (by omega),
    fadd_exact (a := i + a + m + d + h) (by omega)]

/-- Claim C3 on the queue root of `fsA`: the total is 3 + 1 + 0 + 0 + 0 + 0. -/
theorem Collect_total_eq_sum_witness :
    (Collect fsA "/q" 1 ⟨NewPostfixExporter, [], []⟩).state.e.totalQ.val = 3 + 1 + 0 + 0 + 0 + 0 :=
  ((Collect_total_eq_sum fsA "/q" 1 ⟨NewPostfixExporter, [], []⟩
    (Collect fsA "/q" 1 ⟨NewPostfixExporter, [], []⟩).state () (by decide)).2 (by decide))

/-- Claim C4 at the failing input: the queue root has no `incoming` subdirectory.  `Collect`
on a new exporter ends the process in `log.Fatal` during the first count, with the mutex
held; no gauge is set and no value is emitted. -/
theorem Collect_missing_category_exits :
    ∀ fuel, Collect fsMissingIncoming "/q" (fuel + 1) ⟨NewPostfixExporter, [], []⟩ =
      .exit ⟨{ NewPostfixExporter with mutex := true }, [],
        [.Lock, .countDir "/q/incoming", .Fatal]⟩ := by
  intro fuel
  have h1 : fsMissingIncoming ("/q" ++ "/incoming") = .openErr := rfl
  have h2 : countDir fsMissingIncoming (fuel + 1) ("/q" ++ "/incoming") = .exit := by
    simp only [countDir, h1]
  simp only [Collect, scrape, Act.bind_apply, Act.bind, mutexLock, callCountDir, h2]
  rfl

/-- Claim C5 at the failing input: the root `/q/deferred` is readable and its subdirectory
`bad` cannot be opened.  With enough fuel for the recursion the call ends in `log.Fatal`,
and for no amount of fuel does `countDir` return a count. -/
theorem countDir_nested_unreadable_exits :
    (∀ fuel, countDir fsUnreadableNested (fuel + 2) "/q/deferred" = .exit) ∧
    ∀ fuel v e, countDir fsUnreadableNested fuel "/q/deferred" ≠ .ret (v, e) := by
  have h : ∀ fuel, countDir fsUnreadableNested (fuel + 2) "/q/deferred" = .exit := by
    intro fuel
    have h1 : fsUnreadableNested "/q/deferred"
        = .entries [⟨"m1", false⟩, ⟨"bad", true⟩, ⟨"m2", false⟩] := rfl
    have h2 : fsUnreadableNested ("/q/deferred" ++ "/" ++ "bad") = .openErr := rfl
    simp only [countDir, h1, h2, countLoop, Bool.false_eq_true, if_false, if_true]
  refine ⟨h, ?_⟩
  intro fuel v e
  match fuel with
  | 0 => intro hc; cases hc
  | 1 =>
    have h1 : countDir fsUnreadableNested 1 "/q/deferred" = .deep := by decide
    rw [h1]; intro hc; cases hc
  | k + 2 => rw [h k]; intro hc; cases hc

/-- Claim C6: for every filesystem state and every prior gauge state, a second `Collect` on
the unchanged filesystem, started from the exporter the first call left, returns in exactly
the state in which the first call returned: the same seven gauge values, the same seven
emitted values, the total recomputed rather than added to the previous one. -/
theorem Collect_idempotent (fs : FS) (queueDir : String) (fuel : Nat) (e : Exporter)
    (ch : List Metric) (tr : List Event) (s1 : Run) (u : Unit)
    (hc : Collect fs queueDir fuel ⟨e, ch, tr⟩ = .ret u s1) :
    Collect fs queueDir fuel ⟨s1.e, ch, tr⟩ = .ret u s1 := by
  obtain ⟨_, i, a, m, d, h, b, ei, ea, em, ed, eh, eb, hi, ha, hmd, hd, hh, hb, rfl⟩ :=
    Collect_ret_inv fs queueDir fuel _ s1 u hc
  rw [Collect_of_counts fs queueDir fuel _ (by simp [finish]) hi ha hmd hd hh hb]
  simp [finish, Gauge.Set]

/-- Claim C6 on the queue root of `fsA`, starting from a new exporter. -/
theorem Collect_idempotent_witness :
    Collect fsA "/q" 1 ⟨(Collect fsA "/q" 1 ⟨NewPostfixExporter, [], []⟩).state.e, [], []⟩
      = .ret () (Collect fsA "/q" 1 ⟨NewPostfixExporter, [], []⟩).state :=
  Collect_idempotent fsA "/q" 1 NewPostfixExporter [] [] _ () (by decide)

/-- Claim C7: after every sequence of `Collect` calls on any filesystem states, starting from
`NewPostfixExporter`, `Describe` sends the same seven descriptors, the ones fixed at
construction: seven pairwise distinct names, all under the namespace `postfix`.  `Describe`
returns every exporter unchanged. -/
theorem Describe_fixed (queueDir : String) (calls : List (FS × Nat)) :
    (Describe (collects queueDir calls NewPostfixExporter) []).2 =
      [⟨"postfix", "total_queue_length", "length of mail queue"⟩,
       ⟨"postfix", "incoming_queue_length", "length of incoming mail queue"⟩,
       ⟨"postfix", "active_queue_length", "length of active mail queue"⟩,
       ⟨"postfix", "maildrop_queue_length", "length of maildrop queue"⟩,
       ⟨"postfix", "deferred_queue_length", "length of deferred mail queue"⟩,
       ⟨"postfix", "hold_queue_length", "length of hold mail queue"⟩,
       ⟨"postfix", "bounce_queue_length", "length of bounce mail queue"⟩] ∧
    ((Describe (collects queueDir calls NewPostfixExporter) []).2.map GaugeOpts.Name).Nodup ∧
    (∀ d ∈ (Describe (collects queueDir calls NewPostfixExporter) []).2,
      d.Namespace = "postfix") ∧
    (Describe (collects queueDir calls NewPostfixExporter) []).2.length = 7 ∧
    (∀ (e : Exporter) (ch : List GaugeOpts), (Describe e ch).1 = e) := by
  have h := collects_preserves_descs queueDir [] calls NewPostfixExporter
  have h0 : (Describe NewPostfixExporter []).2 =
      [⟨"postfix", "total_queue_length", "length of mail queue"⟩,
       ⟨"postfix", "incoming_queue_length", "length of incoming mail queue"⟩,
       ⟨"postfix", "active_queue_length", "length of active mail queue"⟩,
       ⟨"postfix", "maildrop_queue_length", "length of maildrop queue"⟩,
       ⟨"postfix", "deferred_queue_length", "length of deferred mail queue"⟩,
       ⟨"postfix", "hold_queue_length", "length of hold mail queue"⟩,
       ⟨"postfix", "bounce_queue_length", "length of bounce mail queue"⟩] := rfl
  rw [h, h0]
  exact ⟨rfl, by decide, by decide, rfl, fun e ch => rfl⟩

/-- Claim C9 at the failing input: `hold` can be opened but not listed.  The execution of
`Collect` is: lock, four counts each followed by its gauge set, the count of `hold`, the
fatal log call.  It holds no `Unlock` event, and the mutex is still held when it ends. -/
theorem Collect_trace_unlistable_hold :
    Collect fsUnlistableHold "/q" 1 ⟨NewPostfixExporter, [], []⟩ =
      .exit ⟨{ NewPostfixExporter with
                mutex := true, incomingQ := NewPostfixExporter.incomingQ.Set 1 }, [],
        [.Lock, .countDir "/q/incoming", .Set .incomingQ 1,
         .countDir "/q/active", .Set .activeQ 0,
         .countDir "/q/maildrop", .Set .maildropQ 0,
         .countDir "/q/deferred", .Set .deferredQ 0,
         .countDir "/q/hold", .Fatal]⟩ ∧
    Event.Unlock ∉ (Collect fsUnlistableHold "/q" 1 ⟨NewPostfixExporter, [], []⟩).state.trace ∧
    (Collect fsUnlistableHold "/q" 1 ⟨NewPostfixExporter, [], []⟩).state.e.mutex = true := by
  refine ⟨by decide, by decide, by decide⟩

/-- Claim C10 as stated fails: `/q` holds two files and `2 ^ 27` subdirectories of `2 ^ 26`
files each; every directory is readable.  When the listing of `/q` returns the
subdirectories first `countDir` returns `2 ^ 53`, when it returns the two files first
`countDir` returns `2 ^ 53 + 2`. -/
theorem countDir_order_dependent :
    Reordered (fsWide (2 ^ 27) (2 ^ 26) (dirsFirst (2 ^ 27) (2 ^ 26)))
      (fsWide (2 ^ 27) (2 ^ 26) (filesFirst (2 ^ 27) (2 ^ 26))) ∧
    Hosts (fsWide (2 ^ 27) (2 ^ 26) (dirsFirst (2 ^ 27) (2 ^ 26))) "/q"
      (dirsFirst (2 ^ 27) (2 ^ 26)) ∧
    Hosts (fsWide (2 ^ 27) (2 ^ 26) (filesFirst (2 ^ 27) (2 ^ 26))) "/q"
      (filesFirst (2 ^ 27) (2 ^ 26)) ∧
    (∀ fuel, countDir (fsWide (2 ^ 27) (2 ^ 26) (dirsFirst (2 ^ 27) (2 ^ 26))) (fuel + 2) "/q"
      = .ret (2 ^ 53, none)) ∧
    (∀ fuel, countDir (fsWide (2 ^ 27) (2 ^ 26) (filesFirst (2 ^ 27) (2 ^ 26))) (fuel + 2) "/q"
      = .ret (2 ^ 53 + 2, none)) ∧
    countDir (fsWide (2 ^ 27) (2 ^ 26) (filesFirst (2 ^ 27) (2 ^ 26))) 2 "/q"
      ≠ countDir (fsWide (2 ^ 27) (2 ^ 26) (dirsFirst (2 ^ 27) (2 ^ 26))) 2 "/q" := by
  have h1 : ∀ fuel, countDir (fsWide (2 ^ 27) (2 ^ 26) (dirsFirst (2 ^ 27) (2 ^ 26)))
      (fuel + 2) "/q" = .ret (2 ^ 53, none) :=
    fun fuel => countDir_dirsFirst _ _ fuel (by norm_num) (by norm_num)
  have h2 : ∀ fuel, countDir (fsWide (2 ^ 27) (2 ^ 26) (filesFirst (2 ^ 27) (2 ^ 26)))
      (fuel + 2) "/q" = .ret (2 ^ 53 + 2, none) :=
    fun fuel => countDir_filesFirst _ _ fuel (by norm_num) (by norm_num) (by norm_num)
  refine ⟨reordered_dirsFirst_filesFirst _ _, hosts_dirsFirst _ _, hosts_filesFirst _ _,
    h1, h2, ?_⟩
  rw [h1 0, h2 0]
  intro h
  injection h with h
  injection h with h
  omega

/-- Claim C10, amended: for every readable directory tree with at most `2 ^ 53`
non-directory entries, permuting the order in which the entries of any directory, at any
depth, are returned by the listing does not change what `countDir` returns. -/
theorem countDir_order_independent (fs1 fs2 : FS) (p : String) (d : Dir)
    (h : Hosts fs1 p d) (hr : Reordered fs1 fs2) (hb : d.files ≤ 2 ^ 53)
    (fuel : Nat) (hf : d.depth < fuel) :
    countDir fs2 fuel p = countDir fs1 fuel p := by
  have e1 : countDir fs1 fuel p = .ret (d.files, none) :=
    countDir_hostedP fs1 p d d.infos h.1 (List.Perm.refl _) (SubHosted.toP fs1 d p h.2) hb fuel hf
  have hp := hr p
  rw [h.1] at hp
  cases h2 : fs2 p with
  | openErr => rw [h2] at hp; exact hp.elim
  | readErr => rw [h2] at hp; exact hp.elim
  | entries l =>
    rw [h2] at hp
    rw [e1]
    exact countDir_hostedP fs2 p d l h2 (List.Perm.symm hp) (SubHosted.reordered hr d p h.2) hb
      fuel hf

/-- Claim C10 on `/q/deferred` of `fsNested`, with both listings reversed. -/
theorem countDir_order_independent_witness :
    countDir fsReordered 2 "/q/deferred" = countDir fsNested 2 "/q/deferred" :=
  countDir_order_independent fsNested fsReordered "/q/deferred" dirNested (by decide)
    reordered_fsNested (by decide) 2 (by decide)

end PostfixExporter
